import Mathlib

/-!
Shallow embedding of the execution engine of the AI-Agents-Orchestra-Starter
repository (`src/app/runtime/executor.py` together with
`src/app/core/interfaces.py`), and proofs about it.

Python values flowing through edge conditions, contexts and outputs are
modelled by the inductive type `PyVal` (`None`, `bool`, `int`, `str`, `list`);
Python dicts are modelled as association lists of `PyVal` pairs, looked up
with Python `==` semantics.  Fallible Python expressions (ones that can raise)
are modelled in `Except Unit`, and `try ... except Exception` blocks are
modelled by mapping the error case to the handler's result.
-/

set_option maxHeartbeats 1000000
set_option linter.unnecessarySeqFocus false

/-- Model of the Python values the engine manipulates in conditions,
contexts and outputs: `None`, booleans, integers, strings and lists. -/
inductive PyVal where
  | none
  | bool (b : Bool)
  | int (n : Int)
  | str (s : String)
  | list (xs : List PyVal)
deriving Repr

/-- Python dicts are modelled as association lists (unique keys in real
dicts; lookup takes the first match, which agrees on duplicate-free lists). -/
abbrev PyDict := List (PyVal × PyVal)

/-- Numeric view used by Python comparison operators: `bool` is a subtype of
`int` in Python, so `True` compares equal to `1`. -/
def pyToIntOpt : PyVal → Option Int
  | .bool b => some (if b then 1 else 0)
  | .int n => some n
  | _ => Option.none

/-- Python `==` on the modelled values.  Never raises: values of unrelated
types compare unequal; `bool` and `int` compare numerically; lists compare
elementwise. -/
def pyEq : PyVal → PyVal → Bool
  | .none, .none => true
  | .bool a, .bool b => a == b
  | .bool a, .int n => (if a then (1 : Int) else 0) == n
  | .int n, .bool b => n == (if b then (1 : Int) else 0)
  | .int m, .int n => m == n
  | .str s, .str t => s == t
  | .list [], .list [] => true
  | .list (x :: xs), .list (y :: ys) => pyEq x y && pyEq (.list xs) (.list ys)
  | _, _ => false

/-- Python three-way comparison (the partial order behind `<`, `<=`, `>`,
`>=`).  Numbers (including booleans) compare numerically, strings
lexicographically, lists lexicographically elementwise; any other
combination raises `TypeError`, modelled as `.error ()`. -/
def pyCmp : PyVal → PyVal → Except Unit Ordering
  | .bool a, .bool b => .ok (compare (if a then (1 : Int) else 0) (if b then 1 else 0))
  | .bool a, .int n => .ok (compare (if a then (1 : Int) else 0) n)
  | .int n, .bool b => .ok (compare n (if b then (1 : Int) else 0))
  | .int m, .int n => .ok (compare m n)
  | .str s, .str t => .ok (compare s t)
  | .list [], .list [] => .ok .eq
  | .list [], .list (_ :: _) => .ok .lt
  | .list (_ :: _), .list [] => .ok .gt
  | .list (x :: xs), .list (y :: ys) =>
      if pyEq x y then pyCmp (.list xs) (.list ys) else pyCmp x y
  | _, _ => .error ()

/-- Python substring test: `needle in hay` for strings. -/
def strContainsSub (hay needle : String) : Bool :=
  go needle.toList hay.toList
where
  go (n : List Char) : List Char → Bool
    | [] => n.isEmpty
    | c :: t => n.isPrefixOf (c :: t) || go n t

/-- Python `val in left` as used by the `contains` operator, guarded by
`isinstance(left, (str, list))`: membership in a list uses `==`; substring
test on strings raises `TypeError` when the needle is not a string; any
other `left` fails the `isinstance` guard and yields `False`. -/
def pyContains (left v : PyVal) : Except Unit Bool :=
  match left with
  | .str s =>
      match v with
      | .str t => .ok (strContainsSub s t)
      | _ => .error ()
  | .list xs => .ok (xs.any (fun x => pyEq v x))
  | _ => .ok false

/-- Python hashability of the modelled values: lists are unhashable
(hashing one raises `TypeError`); `None`, booleans, integers and strings
are hashable. -/
def pyHashable : PyVal → Bool
  | .list _ => false
  | _ => true

/-- The value Python `d.get(k)` produces when it does not raise: the first
entry whose key compares `==` to `k`, or `None` when absent.  For an
unhashable `k` the real call raises `TypeError` before comparing anything
(see `pyDictGetE`); this projection returns `None` there - a real Python
dict cannot hold an unhashable key, so no entry could have matched. -/
def pyDictGet (d : PyDict) (k : PyVal) : PyVal :=
  if pyHashable k then
    match d.find? (fun p => pyEq p.1 k) with
    | some p => p.2
    | Option.none => .none
  else .none

/-- Python dict `d.get(k)` as the fallible operation it is: the dict
hashes the key first, so the call raises `TypeError` for an unhashable
key; otherwise it returns the entry whose key compares `==` to `k`, or
`None` when absent. -/
def pyDictGetE (d : PyDict) (k : PyVal) : Except Unit PyVal :=
  if pyHashable k then .ok (pyDictGet d k) else .error ()

/-- Python `k in d` membership for a dict with the given key. -/
def pyDictHas (d : PyDict) (k : PyVal) : Bool :=
  d.any (fun p => pyEq p.1 k)

/-- The body of the `try` block of `_eval_cond` (executor.py lines 51-59):
the operator dispatch.  An unrecognized operator falls through to
`return False`.  Raising subexpressions propagate as `.error`. -/
def evalOpsE (op left v : PyVal) : Except Unit Bool :=
  if pyEq op (.str "==") then .ok (pyEq left v)
  else if pyEq op (.str "!=") then .ok (!pyEq left v)
  else if pyEq op (.str ">") then (pyCmp left v).map (fun o => o == .gt)
  else if pyEq op (.str ">=") then (pyCmp left v).map (fun o => o != .lt)
  else if pyEq op (.str "<") then (pyCmp left v).map (fun o => o == .lt)
  else if pyEq op (.str "<=") then (pyCmp left v).map (fun o => o != .gt)
  else if pyEq op (.str "contains") then pyContains left v
  else .ok false

/-- `_eval_cond(cond, ctx)` (executor.py lines 43-61) with the result typed
in `Except`, so that "the function raises" is representable.  The lookups
of `"var"`, `"op"` and `"value"` (lines 46-48) use the string keys of
`cond.get` and cannot raise, but `left = ctx.get(var)` on line 49 stands
before the `try` of line 51: when the condition's `var` value is
unhashable this call raises `TypeError` and the error escapes
`_eval_cond` (and its call sites in `run_node`, which catch nothing
around it).  The `try ... except Exception: return False` maps every
error raised inside the dispatch to `.ok false`. -/
def evalCondE (cond ctx : PyDict) : Except Unit Bool :=
  if cond.isEmpty then .ok true
  else
    let var := pyDictGet cond (.str "var")
    let op := pyDictGet cond (.str "op")
    let v := pyDictGet cond (.str "value")
    match pyDictGetE ctx var with
    | .error e => .error e
    | .ok left =>
      match evalOpsE op left v with
      | .ok b => .ok b
      | .error _ => .ok false

/-- `_eval_cond` as the boolean available to callers when the call
returns.  The error case - an unhashable `var` value, which in the
program propagates out of the activation loop - is mapped to `false`
here; the activation model below is stated over this returned value. -/
def evalCond (cond ctx : PyDict) : Bool :=
  match evalCondE cond ctx with
  | .ok b => b
  | .error _ => false

/-- The operators the dispatch of `_eval_cond` recognizes. -/
def isRecognizedOp (op : PyVal) : Bool :=
  pyEq op (.str "==") || pyEq op (.str "!=") || pyEq op (.str ">") ||
  pyEq op (.str ">=") || pyEq op (.str "<") || pyEq op (.str "<=") ||
  pyEq op (.str "contains")


/-! ## Graph data model (executor.py lines 63-82) -/

/-- `NodeSpec` (executor.py lines 63-69). -/
structure NodeSpec where
  id : String
  type : String
  params : PyDict := []
  timeout_sec : Option Int := Option.none
  retries : Option Int := Option.none
  optional : Bool := false

/-- `EdgeSpec` (executor.py lines 71-75): `map` sends destination-context
keys to source-output keys; `cond` is an optional condition dict.  The
source fields are `from` (aliased `from_` in the code, kept here) and `to`
(written `to_` here because Mathlib reserves the token `to`). -/
structure EdgeSpec where
  from_ : String
  to_ : String
  map : List (PyVal × PyVal) := []
  cond : Option PyDict := Option.none

/-- `GraphSpec` (executor.py lines 77-82); the `options` dict is modelled by
the three values `Executor.execute` extracts from it (lines 138-143). -/
structure GraphSpec where
  name : String
  nodes : List NodeSpec
  edges : List EdgeSpec
  sinks : List String := []

/-- The list of node ids, in declaration order. -/
def nodeIds (g : GraphSpec) : List String := g.nodes.map (·.id)

/-- In-degree map built identically in `_validate_graph` (lines 24-28) and
`Executor.execute` (lines 146-150): start every id at `0`, then
`indeg[e.to_] += 1` per edge.  Modelled as a total function on strings that
is `0` outside the ids (the dicts are only ever indexed at node ids). -/
def indeg0 (g : GraphSpec) : String → Int :=
  g.edges.foldl (fun m e => Function.update m e.to_ (m e.to_ + 1)) (fun _ => 0)

/-- Children map built identically in `_validate_graph` (lines 25-28) and
`Executor.execute` (lines 147-150): `children[e.from_].append(e.to_)` per
edge, so a node appears once per outgoing edge. -/
def childrenMap (g : GraphSpec) : String → List String :=
  g.edges.foldl (fun m e => Function.update m e.from_ (m e.from_ ++ [e.to_])) (fun _ => [])

/-! ## The node runner (`run_node`, executor.py lines 160-256)

The agent is modelled as a function from the attempt number to a pair of
the wall-clock duration of that attempt and its result (`Option.none` for an
exception).  One iteration of the `while True` loop performs the
`asyncio.wait_for` timeout check, the output-schema check, and on failure
the `attempt <= retries` dispatch.  The loop is given fuel; running out of
fuel is reported as `.fuelOut`, meaning the loop was still running after
that many iterations. -/

/-- Node lifecycle events emitted through `_emit`, restricted to the fields
the claims are about. -/
inductive NodeEvent where
  | start (attempt : Nat)
  | retry
  | done
  | fail
  | failOptional
deriving DecidableEq, Repr

/-- How `run_node` ends. -/
inductive NodeOutcome where
  | success (out : PyDict)
  | raisedInput (missing : List String)
  | raisedFail
  | fuelOut
deriving Repr

/-- What one `run_node` call produced: its events in order, how often it
incremented `finished_nodes`, and how it ended. -/
structure RunNodeResult where
  events : List NodeEvent
  finishedDelta : Nat
  outcome : NodeOutcome
deriving Repr

/-- `_validate_keys` from `src/app/core/interfaces.py` (lines 19-28): the
keys of the schema that are missing from the data, using Python dict
membership.  The call raises exactly when this list is nonempty. -/
def missingKeys (schema : List String) (data : PyDict) : List String :=
  schema.filter (fun k => !pyDictHas data (.str k))

/-- The `while True` attempt loop of `run_node` (executor.py lines
182-256).  `timeout` and `retries` are the graph-level values computed in
`Executor.execute` (lines 138-139) and captured by the closure - `run_node`
never consults `node.timeout_sec` or `node.retries`.  An attempt fails when
its duration exceeds the timeout (`asyncio.wait_for`), when the agent
raises (`Option.none`), or when the output misses schema keys
(`_check_keys` on line 198).  On failure with `attempt <= retries` the
loop emits `node.retry` and continues; otherwise, if the node is optional
it increments `finished_nodes`, emits `node.fail(optional)` and - there
being no `break` or `return` in that branch - falls back into the loop;
if the node is not optional it emits `node.fail` and re-raises. -/
def attemptLoop (agent : Nat → Nat × Option PyDict) (outputSchema : List String)
    (timeout : Nat) (retries : Nat) (optional : Bool) :
    Nat → Nat → RunNodeResult
  | 0, _ => ⟨[], 0, .fuelOut⟩
  | fuel + 1, attempt =>
    let a := attempt + 1
    let r := agent a
    let attemptOut : Option PyDict :=
      if timeout < r.1 then Option.none
      else match r.2 with
        | Option.none => Option.none
        | some out => if missingKeys outputSchema out = [] then some out else Option.none
    match attemptOut with
    | some out => ⟨[.start a, .done], 1, .success out⟩
    | Option.none =>
      if a ≤ retries then
        let rest := attemptLoop agent outputSchema timeout retries optional fuel a
        ⟨.start a :: .retry :: rest.events, rest.finishedDelta, rest.outcome⟩
      else if optional then
        let rest := attemptLoop agent outputSchema timeout retries optional fuel a
        ⟨.start a :: .failOptional :: rest.events, rest.finishedDelta + 1, rest.outcome⟩
      else
        ⟨[.start a, .fail], 0, .raisedFail⟩

/-- `run_node` for one node (executor.py lines 160-256), starting after the
tool-availability check, with the assembled context `ctx` as input: the
input-schema validation on line 180 runs before `attempt = 0`, so a missing
key raises out of `run_node` without any attempt being made; otherwise the
attempt loop runs.  Of the node spec only `node.optional` is ever read. -/
def runNode (node : NodeSpec) (inputSchema outputSchema : List String) (ctx : PyDict)
    (agent : Nat → Nat × Option PyDict) (timeout retries fuel : Nat) : RunNodeResult :=
  let missing := missingKeys inputSchema ctx
  if missing = [] then
    attemptLoop agent outputSchema timeout retries node.optional fuel 0
  else
    ⟨[], 0, .raisedInput missing⟩

/-- Predicate for counting `node.start` events. -/
def isStartEvent : NodeEvent → Bool
  | .start _ => true
  | _ => false

/-! ## Edge activation (executor.py lines 258-273) -/

/-- Projection of a source output through an edge `map` (the dict
comprehension on line 263 and, for input assembly, lines 177-178):
`test_ctx = (dst_key -> src.get(src_key))`. -/
def projCtx (m : List (PyVal × PyVal)) (src : PyDict) : PyDict :=
  m.map (fun p => (p.1, pyDictGet src p.2))

/-- The `edge_enabled` computation for one child entry (executor.py lines
259-266): scan all graph edges; the entry is enabled as soon as one edge
`nid -> c` has its condition (or no condition, `e.cond or ` the empty dict)
satisfied against that edge's own projected test context. -/
def edgeEnabled (g : GraphSpec) (nid c : String) (out : PyDict) : Bool :=
  g.edges.any (fun e =>
    e.from_ == nid && e.to_ == c && evalCond (e.cond.getD []) (projCtx e.map out))

/-- The in-degree decrement loop shared by edge activation (executor.py
lines 258-273, with `dec` the `edge_enabled` gate) and by the Kahn loop of
`_validate_graph` (lines 35-38, with `dec` constantly true): for each entry,
if enabled, decrement the entry's in-degree and append it to the ready/queue
list exactly when the new value is zero. -/
def decEntries (dec : String → Bool) :
    List String → (String → Int) → List String → (String → Int) × List String
  | [], indeg, q => (indeg, q)
  | c :: cs, indeg, q =>
    if dec c then
      let d := indeg c - 1
      decEntries dec cs (Function.update indeg c d) (if d = 0 then q ++ [c] else q)
    else
      decEntries dec cs indeg q

/-- The whole post-completion activation step of `run_node` (lines 258-273):
one pass over `children[nid]` (one entry per outgoing edge), where
`edge_enabled` depends only on the pair `(nid, entry)` and the completed
node's output. -/
def activateChildren (g : GraphSpec) (nid : String) (out : PyDict)
    (indeg : String → Int) (ready : List String) : (String → Int) × List String :=
  decEntries (fun c => edgeEnabled g nid c out) (childrenMap g nid) indeg ready

/-- Spec-side count of the outgoing edges `nid -> c` whose condition is
satisfied against their own projected context; per the specification each
such edge should decrement `indeg[c]` once, independently. -/
def satisfiedEdgeCount (g : GraphSpec) (nid c : String) (out : PyDict) : Nat :=
  (g.edges.filter (fun e =>
    e.from_ == nid && e.to_ == c && evalCond (e.cond.getD []) (projCtx e.map out))).length

/-! ## Graph validation (`_validate_graph`, executor.py lines 13-41) -/

/-- The Kahn worklist loop (executor.py lines 30-38): pop from the end of
`q` (`list.pop()`), record the node as visited (the code keeps only the
count; the model keeps the list of visited nodes in pop order), decrement
its children decrementing each entry once, pushing nodes whose in-degree
reaches zero.  Structured with fuel; the returned components are
(visited order, final in-degrees, remaining queue). -/
def kahnLoop (children : String → List String) :
    Nat → List String → (String → Int) → List String →
    List String × (String → Int) × List String
  | 0, q, indeg, order => (order, indeg, q)
  | fuel + 1, q, indeg, order =>
    match q.getLast? with
    | Option.none => (order, indeg, q)
    | some nid =>
      let p := decEntries (fun _ => true) (children nid) indeg q.dropLast
      kahnLoop children fuel p.2 p.1 (order ++ [nid])

/-- `_validate_graph` (executor.py lines 13-41).  `ValueError` is modelled
as `Except.error` with the message; the duplicate-id check compares the
size of the id set (`dedup` length) with the node count; the endpoint check
scans the edges; the cycle check runs Kahn's algorithm and compares the
number of visited nodes with the node count.  The function reads the graph
and builds fresh maps; it mutates nothing. -/
def validateGraph (g : GraphSpec) : Except String Unit :=
  if (nodeIds g).dedup.length ≠ g.nodes.length then
    .error "Duplicate node.id detected"
  else if g.edges.any (fun e =>
      !((nodeIds g).contains e.from_) || !((nodeIds g).contains e.to_)) then
    .error "Edge references unknown node"
  else
    let indeg := indeg0 g
    let q := (nodeIds g).filter (fun nid => indeg nid == 0)
    let r := kahnLoop (childrenMap g) (g.nodes.length + 1) q indeg []
    if r.1.length ≠ g.nodes.length then
      .error "Cycle detected in graph (DAG only)"
    else
      .ok ()

/-- The edge-step relation of the graph: `edgeStep g a b` holds when some
edge goes from `a` to `b`. -/
def edgeStep (g : GraphSpec) (a b : String) : Prop :=
  ∃ e ∈ g.edges, e.from_ = a ∧ e.to_ = b

/-- The graph contains no cycle: no node reaches itself through a nonempty
edge path. -/
def Acyclic (g : GraphSpec) : Prop :=
  ∀ n, ¬ Relation.TransGen (edgeStep g) n n

/-! ## The run coordination state (`Executor.execute`, executor.py lines 118-297)

`asyncio` is cooperative: all mutations of `indeg`, `ready`, `running`,
`tasks` and `outputs` happen between suspension points, and the whole
child-activation block of `run_node` (lines 258-273) contains no `await`,
so it executes atomically.  The run is therefore modelled as a small-step
transition system whose steps are the atomic blocks of the code:

* popping one entry off the ready list in the inner `while ready` loop
  (lines 279-284), which either skips an already-running node or creates
  its task (`running` only ever grows; `tasks` tracks in-flight tasks);
* a created task finishing successfully, which writes `outputs[nid]`
  (line 200) and then runs the activation block;
* a created task ending without activation - `run_node` raising before or
  after the loop, or being cancelled (the code then aborts the run;
  keeping such steps makes the invariants hold on a superset of the
  code's behaviours).

The agent output recorded at a successful completion is a free parameter
of the step, so the relation covers every possible agent behaviour. -/

/-- Coordinator-owned run state.  `running` is the code's ever-growing
`running` set, `inflight` the domain of its `tasks` dict, `actDone` the set
of nodes whose successful completion has executed the activation block, and
`launches` a ghost trace with one entry per `asyncio.create_task` call. -/
structure ExecState where
  indeg : String → Int
  ready : List String
  running : Finset String
  inflight : Finset String
  actDone : Finset String
  outputs : String → Option PyDict
  launches : List String

/-- The initial run state (executor.py lines 145-155, 275-276). -/
def initState (g : GraphSpec) : ExecState where
  indeg := indeg0 g
  ready := (nodeIds g).filter (fun nid => indeg0 g nid == 0)
  running := ∅
  inflight := ∅
  actDone := ∅
  outputs := fun _ => Option.none
  launches := []

/-- One atomic scheduler/runner step, as described above. -/
inductive ExecStep (g : GraphSpec) : ExecState → ExecState → Prop where
  | launchSkip (s : ExecState) (q : List String) (nid : String) :
      s.ready = q ++ [nid] → nid ∈ s.running →
      ExecStep g s { s with ready := q }
  | launch (s : ExecState) (q : List String) (nid : String) :
      s.ready = q ++ [nid] → nid ∉ s.running →
      ExecStep g s { s with
        ready := q
        running := insert nid s.running
        inflight := insert nid s.inflight
        launches := s.launches ++ [nid] }
  | completeOk (s : ExecState) (nid : String) (out : PyDict) :
      nid ∈ s.inflight →
      ExecStep g s { s with
        indeg := (activateChildren g nid out s.indeg s.ready).1
        ready := (activateChildren g nid out s.indeg s.ready).2
        inflight := s.inflight.erase nid
        actDone := insert nid s.actDone
        outputs := Function.update s.outputs nid (some out) }
  | completeNoAct (s : ExecState) (nid : String) :
      nid ∈ s.inflight →
      ExecStep g s { s with inflight := s.inflight.erase nid }

/-- States reachable during a run of graph `g`. -/
inductive Reach (g : GraphSpec) : ExecState → Prop where
  | init : Reach g (initState g)
  | step (s s' : ExecState) : Reach g s → ExecStep g s s' → Reach g s'

/-! ## Auxiliary objects: counts, invariants and concrete fixtures used
by the proofs below -/

/-- The boolean each comparison operator extracts from the three-way
comparison (spec-side description of the dispatch). -/
def cmpOpTest : String → Ordering → Bool
  | ">", o => o == .gt
  | ">=", o => o != .lt
  | "<", o => o == .lt
  | "<=", o => o != .gt
  | _, _ => false

/-- Concrete node with per-node overrides set, used against graph-level
defaults. -/
def c3Node : NodeSpec :=
  { id := "n", type := "t", timeout_sec := some 10, retries := some 2, optional := false }

/-- Agent whose every attempt takes 5 seconds and returns an empty output
(which satisfies an empty output schema). -/
def c3Agent : Nat → Nat × Option PyDict := fun _ => (5, some [])

/-- Optional node used for the input-validation counterexample. -/
def c5Node : NodeSpec := { id := "x", type := "t", optional := true }

/-- Two-node graph with two parallel edges `A -> B`, one satisfied
(`x == 1`) and one not (`x == 2`) for the output `x = 1`. -/
def c4Graph : GraphSpec where
  name := "g"
  nodes := [{ id := "A", type := "t" }, { id := "B", type := "t" }]
  edges := [
    { from_ := "A", to_ := "B", map := [(.str "x", .str "x")],
      cond := some [(.str "var", .str "x"), (.str "op", .str "=="), (.str "value", .int 1)] },
    { from_ := "A", to_ := "B", map := [(.str "x", .str "x")],
      cond := some [(.str "var", .str "x"), (.str "op", .str "=="), (.str "value", .int 2)] } ]

/-- The completed output of node `A` in the counterexample. -/
def c4Out : PyDict := [(.str "x", .int 1)]

/-- Number of edges `u -> c` in the graph. -/
def edgeCnt (g : GraphSpec) (u c : String) : Nat :=
  g.edges.countP (fun e => e.from_ == u && e.to_ == c)

/-- The in-degree decrement a completed node `u` has applied to `c`: the
full count of edges `u -> c` when some edge between them was satisfied
against `u`'s recorded output, else nothing (and nothing when `u` has no
recorded output). -/
def decAmt (g : GraphSpec) (outs : String → Option PyDict) (u c : String) : Int :=
  match outs u with
  | some o => if edgeEnabled g u c o then (edgeCnt g u c : Int) else 0
  | Option.none => 0

/-- Inductive invariant of the run coordination state. -/
structure ExecInv (g : GraphSpec) (s : ExecState) : Prop where
  indeg_eq : ∀ c, s.indeg c = indeg0 g c - ∑ u ∈ s.actDone, decAmt g s.outputs u c
  actDone_ids : ∀ n ∈ s.actDone, n ∈ nodeIds g
  launch_count : ∀ n, s.launches.count n ≤ 1
  launch_mem : ∀ n, n ∈ s.launches ↔ n ∈ s.running
  inflight_not_done : ∀ n ∈ s.inflight, n ∉ s.actDone
  actDone_running : ∀ n ∈ s.actDone, n ∈ s.running
  inflight_running : ∀ n ∈ s.inflight, n ∈ s.running
  ready_ids : ∀ n ∈ s.ready, n ∈ nodeIds g
  running_ids : ∀ n ∈ s.running, n ∈ nodeIds g

/-- Loop invariant of the Kahn worklist loop of `_validate_graph`:
`order` is the list of visited (popped) nodes, `q` the pending queue,
`indeg` the current in-degree map. -/
structure KahnInv (g : GraphSpec) (q : List String) (indeg : String → Int)
    (order : List String) : Prop where
  order_nodup : order.Nodup
  q_nodup : q.Nodup
  disj : ∀ x, x ∈ q → x ∉ order
  q_ids : ∀ x ∈ q, x ∈ nodeIds g
  order_ids : ∀ x ∈ order, x ∈ nodeIds g
  q_zero : ∀ x ∈ q, indeg x = 0
  order_nonpos : ∀ x ∈ order, indeg x ≤ 0
  zero_in : ∀ x ∈ nodeIds g, indeg x = 0 → x ∈ q ∨ x ∈ order
  indeg_eq : ∀ x, indeg x = indeg0 g x - ∑ u ∈ order.toFinset, (edgeCnt g u x : Int)

/-! ## Theorems -/

/-- Helper: an unhashable key makes the non-raising projection of
`dict.get` return `None` (the real call raises there). -/
theorem pyDictGet_unhashable (d : PyDict) (k : PyVal)
    (h : pyHashable k = false) : pyDictGet d k = .none := by
  unfold pyDictGet
  simp [h]

/-- Helper: when the condition's `var` value is hashable, `_eval_cond`
returns the boolean `evalCond` computes - nothing is raised. -/
theorem evalCondE_eq_ok (cond ctx : PyDict)
    (h : pyHashable (pyDictGet cond (.str "var")) = true) :
    evalCondE cond ctx = Except.ok (evalCond cond ctx) := by
  unfold evalCond
  cases hres : evalCondE cond ctx with
  | ok b => rfl
  | error u =>
    exfalso
    unfold evalCondE pyDictGetE at hres
    by_cases hc : cond.isEmpty
    · simp [hc] at hres
    · simp only [hc, if_false, h, if_true] at hres
      cases hop : evalOpsE (pyDictGet cond (.str "op"))
          (pyDictGet ctx (pyDictGet cond (.str "var")))
          (pyDictGet cond (.str "value")) <;>
        rw [hop] at hres <;> simp at hres

/-- Helper: a nonempty condition whose `var` value is unhashable makes
`_eval_cond` raise - `ctx.get(var)` stands before the `try`. -/
theorem evalCondE_error_of_unhashable (cond ctx : PyDict)
    (hc : cond ≠ []) (hv : pyHashable (pyDictGet cond (.str "var")) = false) :
    evalCondE cond ctx = Except.error () := by
  have hc2 : cond.isEmpty = false := by cases cond <;> simp_all
  unfold evalCondE pyDictGetE
  simp [hc2, hv]

/-- Helper: with a nonempty condition and a hashable `var` value,
`evalCond` is the result of the operator dispatch with dispatch errors
caught to `false`. -/
theorem evalCond_eq_dispatch (cond ctx : PyDict)
    (hne : cond.isEmpty = false)
    (hv : pyHashable (pyDictGet cond (.str "var")) = true) :
    evalCond cond ctx
      = match evalOpsE (pyDictGet cond (.str "op"))
          (pyDictGet ctx (pyDictGet cond (.str "var")))
          (pyDictGet cond (.str "value")) with
        | .ok b => b
        | .error _ => false := by
  unfold evalCond evalCondE pyDictGetE
  simp only [hne, Bool.false_eq_true, if_false, hv, if_true]
  cases hop : evalOpsE (pyDictGet cond (.str "op"))
      (pyDictGet ctx (pyDictGet cond (.str "var")))
      (pyDictGet cond (.str "value")) <;> simp [hop]

/-- C10 counterexample: for the condition dict with `var` holding a list,
`_eval_cond` raises: the `ctx.get(var)` call on executor.py line 49 hashes
the unhashable key before the `try` begins, so the evaluator is not a
total boolean function. -/
theorem evalCondE_unhashable_var_error_cex :
    evalCondE [(.str "var", .list [])] [(.str "x", .int 1)] = Except.error () := by
  simp [evalCondE, pyDictGetE, pyDictGet, pyHashable, pyEq]

/-- C10 amended: `_eval_cond` returns a boolean (raising nothing) exactly
when the condition is empty or its `var` value is hashable; a nonempty
condition with an unhashable `var` value (a list) raises `TypeError` from
the `ctx.get(var)` call that precedes the `try`, and the error escapes
the function. -/
theorem evalCondE_total_iff_hashable (cond ctx : PyDict) :
    evalCondE cond ctx = Except.ok (evalCond cond ctx)
      ↔ (cond = [] ∨ pyHashable (pyDictGet cond (.str "var")) = true) := by
  constructor
  · intro hok
    by_cases hc : cond = []
    · exact Or.inl hc
    · by_cases hv : pyHashable (pyDictGet cond (.str "var")) = true
      · exact Or.inr hv
      · have hvf : pyHashable (pyDictGet cond (.str "var")) = false := by
          simpa using hv
        rw [evalCondE_error_of_unhashable cond ctx hc hvf] at hok
        exact absurd hok (by simp)
  · rintro (rfl | hv)
    · rfl
    · exact evalCondE_eq_ok cond ctx hv

/-- C7 counterexample: condition evaluation CAN raise a run-level error:
with `var` holding the list `[1]`, `ctx.get(var)` raises `TypeError`
before the `try`, and nothing on the path through `run_node`'s activation
loop catches it. -/
theorem evalCond_unhashable_var_raises_cex :
    evalCondE [(.str "var", .list [.int 1]), (.str "op", .str "=="),
        (.str "value", .int 1)] []
      = Except.error () := by
  simp [evalCondE, pyDictGetE, pyDictGet, pyHashable, pyEq]

/-- C7 amended: conditions gate edges without raising PROVIDED the
condition's `var` value is hashable: an empty (or absent) condition
activates the edge, an unrecognized operator yields `false`, and an error
raised inside the operator dispatch yields `false`; a nonempty condition
whose `var` value is unhashable instead raises before the `try`, and the
error propagates out of `_eval_cond` as a run-level error. -/
theorem evalCond_gates_edges_when_var_hashable (cond ctx : PyDict) :
    evalCondE [] ctx = Except.ok true
    ∧ (pyHashable (pyDictGet cond (.str "var")) = true →
        ∃ b, evalCondE cond ctx = Except.ok b)
    ∧ (pyHashable (pyDictGet cond (.str "var")) = true → cond ≠ [] →
        isRecognizedOp (pyDictGet cond (.str "op")) = false →
        evalCondE cond ctx = Except.ok false)
    ∧ (∀ u, evalOpsE (pyDictGet cond (.str "op"))
          (pyDictGet ctx (pyDictGet cond (.str "var")))
          (pyDictGet cond (.str "value")) = Except.error u →
        pyHashable (pyDictGet cond (.str "var")) = true →
        evalCondE cond ctx = Except.ok false)
    ∧ (cond ≠ [] → pyHashable (pyDictGet cond (.str "var")) = false →
        evalCondE cond ctx = Except.error ()) := by
  refine ⟨rfl, fun h => ⟨evalCond cond ctx, evalCondE_eq_ok cond ctx h⟩, ?_, ?_,
    fun hc hv => evalCondE_error_of_unhashable cond ctx hc hv⟩
  · intro h hne hop
    simp only [isRecognizedOp, Bool.or_eq_false_iff] at hop
    obtain ⟨⟨⟨⟨⟨⟨h1, h2⟩, h3⟩, h4⟩, h5⟩, h6⟩, h7⟩ := hop
    have hne2 : cond.isEmpty = false := by
      cases cond <;> simp_all
    simp [evalCondE, pyDictGetE, hne2, h, evalOpsE, h1, h2, h3, h4, h5, h6, h7]
  · intro u hu h
    by_cases hc : cond.isEmpty
    · rw [List.isEmpty_iff] at hc
      subst hc
      simp [pyDictGet, pyHashable, evalOpsE, pyEq] at hu
    · have hne2 : cond.isEmpty = false := by simpa using hc
      simp [evalCondE, pyDictGetE, hne2, h, hu]

/-- Witness for `evalCond_gates_edges_when_var_hashable`: the unrecognized
operator `noop` under an absent (hashable, `None`) `var` value evaluates
to `false` without raising. -/
theorem evalCond_gates_edges_when_var_hashable_witness :
    evalCondE [(.str "op", .str "noop")] [] = Except.ok false :=
  (evalCond_gates_edges_when_var_hashable [(.str "op", .str "noop")] []).2.2.1
    (by simp [pyDictGet, pyHashable, pyEq])
    (by simp)
    (by simp [pyDictGet, pyHashable, isRecognizedOp, pyEq])

/-- C8 counterexample: with operator `>` and two string operands the
condition evaluates to `true`, although both operands are non-numeric (the
claim demands `false`): Python happily orders strings. -/
theorem evalCond_string_comparison_cex :
    evalCond [(.str "var", .str "x"), (.str "op", .str ">"), (.str "value", .str "a")]
      [(.str "x", .str "b")] = true := by
  simp [evalCond, evalCondE, pyDictGetE, pyHashable, evalOpsE, pyDictGet,
    pyEq, pyCmp, Except.map]
  decide

/-- C8 amended: the four order operators perform Python order comparison:
numeric operands (booleans counting as integers) compare numerically, two
strings compare lexicographically, and when the comparison raises (mixed
or unordered operand kinds, for example a number against a string or
`None` against anything) the condition evaluates to `false`. -/
theorem evalCond_comparison_semantics (cond ctx : PyDict) (o : String)
    (ho : o = ">" ∨ o = ">=" ∨ o = "<" ∨ o = "<=")
    (hne : cond ≠ [])
    (hop : pyDictGet cond (.str "op") = .str o) :
    (∀ a b : Int, pyDictGet ctx (pyDictGet cond (.str "var")) = .int a →
        pyDictGet cond (.str "value") = .int b →
        evalCond cond ctx = cmpOpTest o (compare a b))
    ∧ (∀ s t : String, pyDictGet ctx (pyDictGet cond (.str "var")) = .str s →
        pyDictGet cond (.str "value") = .str t →
        evalCond cond ctx = cmpOpTest o (compare s t))
    ∧ (pyCmp (pyDictGet ctx (pyDictGet cond (.str "var")))
          (pyDictGet cond (.str "value")) = .error () →
        evalCond cond ctx = false) := by
  have hne' : cond.isEmpty = false := by cases cond <;> simp_all
  refine ⟨?_, ?_, ?_⟩
  · intro a b hl hv
    have hh : pyHashable (pyDictGet cond (.str "var")) = true := by
      by_contra hhn
      have hhf : pyHashable (pyDictGet cond (.str "var")) = false := by
        simpa using hhn
      rw [pyDictGet_unhashable ctx _ hhf] at hl
      exact absurd hl (by simp)
    rw [evalCond_eq_dispatch cond ctx hne' hh]
    rcases ho with rfl | rfl | rfl | rfl <;>
      simp [evalOpsE, hop, hl, hv, pyEq, pyCmp, Except.map, cmpOpTest]
  · intro s t hl hv
    have hh : pyHashable (pyDictGet cond (.str "var")) = true := by
      by_contra hhn
      have hhf : pyHashable (pyDictGet cond (.str "var")) = false := by
        simpa using hhn
      rw [pyDictGet_unhashable ctx _ hhf] at hl
      exact absurd hl (by simp)
    rw [evalCond_eq_dispatch cond ctx hne' hh]
    rcases ho with rfl | rfl | rfl | rfl <;>
      simp [evalOpsE, hop, hl, hv, pyEq, pyCmp, Except.map, cmpOpTest]
  · intro hcmp
    by_cases hh : pyHashable (pyDictGet cond (.str "var")) = true
    · rw [evalCond_eq_dispatch cond ctx hne' hh]
      rcases ho with rfl | rfl | rfl | rfl <;>
        simp [evalOpsE, hop, hcmp, pyEq, Except.map]
    · have hhf : pyHashable (pyDictGet cond (.str "var")) = false := by
        simpa using hh
      unfold evalCond
      rw [evalCondE_error_of_unhashable cond ctx hne hhf]

/-- Witness for `evalCond_comparison_semantics` at a concrete input:
`2 > 1` through a condition dict. -/
theorem evalCond_comparison_semantics_witness :
    evalCond [(.str "var", .str "x"), (.str "op", .str ">"), (.str "value", .int 1)]
      [(.str "x", .int 2)] = cmpOpTest ">" (compare (2 : Int) 1) :=
  (evalCond_comparison_semantics
      [(.str "var", .str "x"), (.str "op", .str ">"), (.str "value", .int 1)]
      [(.str "x", .int 2)] ">" (Or.inl rfl) (by simp)
      (by simp [pyDictGet, pyHashable, pyEq])).1 2 1
    (by simp [pyDictGet, pyHashable, pyEq]) (by simp [pyDictGet, pyHashable, pyEq])

/-- C1 (bug evaluation): for an optional node whose agent fails every
attempt, with retry budget `R = 0`, the attempt loop never terminates: for
every fuel it is still running, and it has emitted one `node.start` per
iteration - so the number of attempts and of `node.start` events exceeds
the claimed `R + 1` bound (at fuel 2 it is already 2 > 1).  The cause is
the optional branch of the exhaustion case (executor.py lines 233-244),
which neither breaks nor returns before the `while True` loop repeats. -/
theorem attemptLoop_optional_exhaustion_diverges (fuel attempt : Nat) :
    (attemptLoop (fun _ => (0, Option.none)) [] 0 0 true fuel attempt).outcome = .fuelOut
    ∧ (attemptLoop (fun _ => (0, Option.none)) [] 0 0 true fuel attempt).events.countP
        isStartEvent = fuel := by
  induction fuel generalizing attempt with
  | zero => exact ⟨rfl, rfl⟩
  | succ n ih =>
    have h := ih (attempt + 1)
    simp only [attemptLoop] at *
    simp_all [isStartEvent]

/-- C2 (bug evaluation): an optional node with `R = 1` whose agent always
fails does not have its failure absorbed once: after the budget is
exhausted the loop keeps running (outcome is still `fuelOut` after 6
iterations), `finished_nodes` has been incremented 5 times instead of
once, and `node.fail(optional)` has been emitted 5 times instead of once;
success-with-no-output is never returned. -/
theorem optional_failure_not_absorbed_runs_again :
    (attemptLoop (fun _ => (0, Option.none)) [] 0 1 true 6 0).outcome = .fuelOut
    ∧ (attemptLoop (fun _ => (0, Option.none)) [] 0 1 true 6 0).finishedDelta = 5
    ∧ (attemptLoop (fun _ => (0, Option.none)) [] 0 1 true 6 0).events.count
        .failOptional = 5 := by
  refine ⟨rfl, rfl, ?_⟩
  rfl

/-- C3 counterexample: the node sets `retries = 2` and `timeout_sec = 10`,
the graph-level values are `max_retries = 0` and `default_timeout_sec = 1`.
Per the claim the runner would allow 3 attempts of up to 10 seconds, so
this 5-second agent would succeed on the first attempt; the code instead
times the attempt out against the graph-level 1 second, makes exactly one
attempt, and fails the node. -/
theorem runNode_ignores_node_overrides_cex :
    c3Node.timeout_sec = some 10 ∧ c3Node.retries = some 2 ∧
    runNode c3Node [] [] [] c3Agent 1 0 5
      = ⟨[.start 1, .fail], 0, .raisedFail⟩ :=
  ⟨rfl, rfl, rfl⟩

/-- C3 amended: `run_node` never reads `node.timeout_sec` or
`node.retries`: its behaviour is invariant under changing them, and the
effective timeout and retry count are always the graph-level values
computed once in `Executor.execute` (lines 138-139). -/
theorem runNode_independent_of_node_overrides (i ty : String) (p : PyDict)
    (t1 r1 t2 r2 : Option Int) (o : Bool) (inS outS : List String) (ctx : PyDict)
    (agent : Nat → Nat × Option PyDict) (timeout retries fuel : Nat) :
    runNode ⟨i, ty, p, t1, r1, o⟩ inS outS ctx agent timeout retries fuel
      = runNode ⟨i, ty, p, t2, r2, o⟩ inS outS ctx agent timeout retries fuel := rfl

/-- C5 counterexample: an optional node whose assembled context misses the
required key `x` raises `raisedInput` out of `run_node` with no attempt
made and no event emitted - the violation is neither retried (the claim
allows up to the retry budget, here 3) nor absorbed by `optional`. -/
theorem runNode_input_violation_not_retried_cex :
    c5Node.optional = true ∧
    runNode c5Node ["x"] [] [] (fun _ => (0, some [])) 5 3 10
      = ⟨[], 0, .raisedInput ["x"]⟩ :=
  ⟨rfl, rfl⟩

/-- C5 amended: a missing required input key raises before the first
attempt (the `_check_keys` call on executor.py line 180 precedes
`attempt = 0`): `run_node` returns the input-contract violation with no
attempt, no event and no finished-count change, for optional and
non-optional nodes alike, propagating to the scheduler. -/
theorem runNode_missing_input_raises_before_first_attempt (node : NodeSpec)
    (inS outS : List String) (ctx : PyDict) (agent : Nat → Nat × Option PyDict)
    (timeout retries fuel : Nat) (h : missingKeys inS ctx ≠ []) :
    runNode node inS outS ctx agent timeout retries fuel
      = ⟨[], 0, .raisedInput (missingKeys inS ctx)⟩ := by
  unfold runNode
  simp [h]

/-- Witness for `runNode_missing_input_raises_before_first_attempt` at a
concrete optional node missing the key `k`. -/
theorem runNode_missing_input_raises_before_first_attempt_witness :
    missingKeys ["k"] [] ≠ [] ∧
    runNode ⟨"y", "t", [], Option.none, Option.none, true⟩ ["k"] [] []
        (fun _ => (0, some [])) 1 1 3
      = ⟨[], 0, .raisedInput (missingKeys ["k"] [])⟩ :=
  ⟨by simp [missingKeys, pyDictHas],
    runNode_missing_input_raises_before_first_attempt _ _ _ _ _ _ _ _
      (by simp [missingKeys, pyDictHas])⟩


/-- Closed form of the in-degree part of the decrement loop: a key whose
gate is enabled loses one per occurrence in the entry list; a disabled or
absent key is untouched. -/
theorem decEntries_indeg (dec : String → Bool) (entries : List String) :
    ∀ (indeg : String → Int) (q : List String) (x : String),
    (decEntries dec entries indeg q).1 x
      = if dec x then indeg x - entries.count x else indeg x := by
  induction entries with
  | nil => intro indeg q x; simp [decEntries]
  | cons c cs ih =>
    intro indeg q x
    simp only [decEntries]
    by_cases hdc : dec c
    · rw [if_pos hdc]
      rw [ih]
      by_cases hxc : x = c
      · subst hxc
        simp only [hdc, if_true, Function.update_same, List.count_cons_self]
        push_cast
        ring
      · simp only [Function.update_noteq hxc, List.count_cons_of_ne hxc]
    · rw [if_neg hdc]
      rw [ih]
      by_cases hxc : x = c
      · subst hxc
        simp [hdc]
      · simp only [List.count_cons_of_ne hxc]

/-- Closed form of the ready/queue part of the decrement loop: a key `x`
is appended exactly once when its gate is enabled and its in-degree lies
between 1 and its number of entries (the loop takes it through the values
`indeg x - 1, ..., indeg x - count x`, appending when one of them is
zero); otherwise the queue is unchanged at `x`. -/
theorem decEntries_queue_count (dec : String → Bool) (entries : List String) :
    ∀ (indeg : String → Int) (q : List String) (x : String),
    (decEntries dec entries indeg q).2.count x
      = q.count x +
        (if dec x = true ∧ 1 ≤ indeg x ∧ indeg x ≤ (entries.count x : Int) then 1 else 0) := by
  induction entries with
  | nil =>
    intro indeg q x
    have h : ¬(dec x = true ∧ 1 ≤ indeg x ∧ indeg x ≤ ((List.count x [] : Nat) : Int)) := by
      rintro ⟨-, h1, h2⟩
      simp [List.count_nil] at h2
      omega
    simp only [decEntries]
    rw [if_neg h]
    simp
  | cons c cs ih =>
    intro indeg q x
    simp only [decEntries]
    by_cases hdc : dec c
    · rw [if_pos hdc]
      rw [ih]
      by_cases hxc : x = c
      · subst hxc
        simp only [hdc, Function.update_same, List.count_cons_self, true_and]
        by_cases hm : indeg x - 1 = 0
        · rw [if_pos hm, List.count_append, List.count_singleton]
          simp only [beq_self_eq_true, if_true]
          push_cast
          split_ifs <;> omega
        · rw [if_neg hm]
          push_cast
          split_ifs <;> omega
      · rw [Function.update_noteq hxc, List.count_cons_of_ne hxc]
        by_cases hm : indeg c - 1 = 0
        · rw [if_pos hm, List.count_append, List.count_singleton]
          have hcx : (c == x) = false := by
            simp only [beq_eq_false_iff_ne, ne_eq]
            exact fun h => hxc h.symm
          rw [hcx, if_neg (by exact Bool.false_ne_true)]
          simp
        · rw [if_neg hm]
    · rw [if_neg hdc]
      rw [ih]
      by_cases hxc : x = c
      · subst hxc
        simp [hdc]
      · rw [List.count_cons_of_ne hxc]

/-- Unfolding of the children-dict construction: `children[k]` lists the
targets of the edges out of `k`, in edge order, one entry per edge. -/
theorem childrenMap_foldl (l : List EdgeSpec) :
    ∀ (init : String → List String) (k : String),
    (l.foldl (fun (m : String → List String) (e : EdgeSpec) =>
        Function.update m e.from_ (m e.from_ ++ [e.to_])) init) k
      = init k ++ (l.filter (fun e => e.from_ == k)).map (·.to_) := by
  induction l with
  | nil => intro init k; simp
  | cons e es ih =>
    intro init k
    simp only [List.foldl_cons]
    rw [ih]
    by_cases h : e.from_ = k
    · subst h
      rw [Function.update_same]
      rw [List.filter_cons_of_pos (by simp)]
      simp [List.append_assoc]
    · rw [Function.update_noteq (fun hh => h hh.symm)]
      rw [List.filter_cons_of_neg (by simp [h])]

/-- `children[k]` as a filtered edge list. -/
theorem childrenMap_eq (g : GraphSpec) (k : String) :
    childrenMap g k = (g.edges.filter (fun e => e.from_ == k)).map (·.to_) := by
  unfold childrenMap
  rw [childrenMap_foldl]
  simp

/-- The number of entries of `c` in `children[k]` is the number of edges
`k -> c`. -/
theorem childrenMap_count (g : GraphSpec) (k c : String) :
    (childrenMap g k).count c
      = g.edges.countP (fun e => e.from_ == k && e.to_ == c) := by
  rw [childrenMap_eq, List.count_eq_countP, List.countP_map, List.countP_filter]
  refine List.countP_congr (fun e _ => ?_)
  simp [Function.comp, Bool.and_comm]

/-- Helper: closed form of the activation pass over `children[nid]`. -/
theorem activateChildren_closed_form (g : GraphSpec) (nid : String) (out : PyDict)
    (indeg : String → Int) (ready : List String) (c : String) :
    ((activateChildren g nid out indeg ready).1 c
        = if edgeEnabled g nid c out then
            indeg c - (g.edges.countP (fun e => e.from_ == nid && e.to_ == c) : Int)
          else indeg c)
    ∧ ((activateChildren g nid out indeg ready).2.count c
        = ready.count c +
          (if edgeEnabled g nid c out = true ∧ 1 ≤ indeg c ∧
              indeg c ≤ (g.edges.countP (fun e => e.from_ == nid && e.to_ == c) : Int)
           then 1 else 0)) := by
  unfold activateChildren
  rw [decEntries_indeg, decEntries_queue_count, childrenMap_count]
  exact ⟨rfl, rfl⟩

/-- C4 amended: when a node completes, the activation loop walks
`children[nid]` (one entry per outgoing edge) and, for each entry, checks
whether ANY edge from `nid` to that entry is satisfied; hence a target `c`
with at least one satisfied incoming edge from `nid` has `indeg[c]`
decremented once per edge `nid -> c` (satisfied or not), while a target
with no satisfied edge is untouched; `c` is appended to the ready list
(exactly once) precisely when the decrements take `indeg[c]` to zero,
i.e. when `1 <= indeg[c] <= ` the number of edges `nid -> c`. -/
theorem activateChildren_characterization (g : GraphSpec) (nid : String) (out : PyDict)
    (indeg : String → Int) (ready : List String) (c : String) :
    ((activateChildren g nid out indeg ready).1 c
        = if edgeEnabled g nid c out then
            indeg c - (g.edges.countP (fun e => e.from_ == nid && e.to_ == c) : Int)
          else indeg c)
    ∧ ((activateChildren g nid out indeg ready).2.count c
        = ready.count c +
          (if edgeEnabled g nid c out = true ∧ 1 ≤ indeg c ∧
              indeg c ≤ (g.edges.countP (fun e => e.from_ == nid && e.to_ == c) : Int)
           then 1 else 0)) :=
  activateChildren_closed_form g nid out indeg ready c

/-- C4 counterexample: `B` has in-degree 2 and exactly one satisfied
incoming edge, so per the claim one decrement should leave `indeg[B] = 1`
and `B` unready; the code instead decrements once per parallel edge
because one of them is satisfied, reaching 0 and scheduling `B`. -/
theorem activation_not_per_edge_cex :
    indeg0 c4Graph "B" = 2
    ∧ satisfiedEdgeCount c4Graph "A" "B" c4Out = 1
    ∧ (activateChildren c4Graph "A" c4Out (indeg0 c4Graph) []).1 "B" = 0
    ∧ (activateChildren c4Graph "A" c4Out (indeg0 c4Graph) []).2 = ["B"]
    ∧ ¬((activateChildren c4Graph "A" c4Out (indeg0 c4Graph) []).1 "B"
        = indeg0 c4Graph "B" - satisfiedEdgeCount c4Graph "A" "B" c4Out) := by
  have hsat1 : evalCond [(.str "var", .str "x"), (.str "op", .str "=="), (.str "value", .int 1)]
      (projCtx [(.str "x", .str "x")] c4Out) = true := by
    simp [evalCond, evalCondE, pyDictGetE, pyHashable, evalOpsE, pyDictGet,
      pyEq, projCtx, c4Out]
  have hsat2 : evalCond [(.str "var", .str "x"), (.str "op", .str "=="), (.str "value", .int 2)]
      (projCtx [(.str "x", .str "x")] c4Out) = false := by
    simp [evalCond, evalCondE, pyDictGetE, pyHashable, evalOpsE, pyDictGet,
      pyEq, projCtx, c4Out]
  have hindeg : indeg0 c4Graph "B" = 2 := by
    simp [indeg0, c4Graph, Function.update_apply]
  have hen : edgeEnabled c4Graph "A" "B" c4Out = true := by
    simp [edgeEnabled, c4Graph, hsat1]
  have hch : childrenMap c4Graph "A" = ["B", "B"] := by
    rw [childrenMap_eq]
    simp [c4Graph]
  have hcnt : satisfiedEdgeCount c4Graph "A" "B" c4Out = 1 := by
    simp [satisfiedEdgeCount, c4Graph, hsat1, hsat2]
  have hact : activateChildren c4Graph "A" c4Out (indeg0 c4Graph) []
      = (Function.update (Function.update (indeg0 c4Graph) "B" 1) "B" 0, ["B"]) := by
    unfold activateChildren
    rw [hch]
    simp [decEntries, hen, hindeg, Function.update_apply]
  refine ⟨hindeg, hcnt, ?_, ?_, ?_⟩
  · rw [hact]; simp [Function.update_apply]
  · rw [hact]
  · rw [hact, hindeg, hcnt]
    simp [Function.update_apply]

/-- Unfolding of the in-degree-dict construction. -/
theorem indeg0_foldl (l : List EdgeSpec) :
    ∀ (init : String → Int) (c : String),
    (l.foldl (fun (m : String → Int) (e : EdgeSpec) =>
        Function.update m e.to_ (m e.to_ + 1)) init) c
      = init c + l.countP (fun e => e.to_ == c) := by
  induction l with
  | nil => intro init c; simp
  | cons e es ih =>
    intro init c
    simp only [List.foldl_cons]
    rw [ih, List.countP_cons]
    by_cases h : e.to_ = c
    · subst h
      rw [Function.update_same]
      simp
      ring
    · rw [Function.update_noteq (fun hh => h hh.symm)]
      have : (e.to_ == c) = false := by
        simp only [beq_eq_false_iff_ne, ne_eq]
        exact h
      rw [this]
      simp

/-- The initial in-degree of `c` is the number of edges into `c`. -/
theorem indeg0_eq_countP (g : GraphSpec) (c : String) :
    indeg0 g c = g.edges.countP (fun e => e.to_ == c) := by
  unfold indeg0
  rw [indeg0_foldl]
  simp

/-- Summing the per-source edge counts over any finite set containing all
edge sources gives the total in-degree. -/
theorem sum_edgeCnt_eq_countP (F : Finset String) (l : List EdgeSpec) (c : String)
    (hl : ∀ e ∈ l, e.from_ ∈ F) :
    ∑ u ∈ F, (l.countP (fun e => e.from_ == u && e.to_ == c) : Int)
      = l.countP (fun e => e.to_ == c) := by
  induction l with
  | nil => simp
  | cons e es ih =>
    have he : e.from_ ∈ F := hl e (List.mem_cons_self e es)
    have hes : ∀ e' ∈ es, e'.from_ ∈ F := fun e' h => hl e' (List.mem_cons_of_mem e h)
    simp only [List.countP_cons]
    push_cast
    rw [Finset.sum_add_distrib, ih hes]
    congr 1
    have hstep : ∀ u ∈ F,
        (if (e.from_ == u && e.to_ == c) = true then (1 : Int) else 0)
          = if e.from_ = u then (if (e.to_ == c) = true then (1 : Int) else 0) else 0 := by
      intro u _
      by_cases h1 : e.from_ = u
      · subst h1
        simp
      · have : (e.from_ == u) = false := by
          simp only [beq_eq_false_iff_ne, ne_eq]
          exact h1
        simp [this, h1]
    rw [Finset.sum_congr rfl hstep]
    rw [Finset.sum_ite_eq F e.from_ (fun _ => if (e.to_ == c) = true then (1 : Int) else 0)]
    simp [he]

/-- The decrement applied by `u` never exceeds the number of edges
`u -> c`. -/
theorem decAmt_le (g : GraphSpec) (outs : String → Option PyDict) (u c : String) :
    0 ≤ decAmt g outs u c ∧ decAmt g outs u c ≤ (edgeCnt g u c : Int) := by
  unfold decAmt
  match outs u with
  | some o =>
    by_cases h : edgeEnabled g u c o <;> simp [h]
  | Option.none => simp

/-- The invariant holds initially. -/
theorem execInv_init (g : GraphSpec) : ExecInv g (initState g) := by
  constructor <;> simp [initState]
  intro n hn _
  exact hn

/-- The invariant is preserved by every step. -/
theorem execInv_step (g : GraphSpec)
    (he : ∀ e ∈ g.edges, e.from_ ∈ nodeIds g ∧ e.to_ ∈ nodeIds g)
    (s s' : ExecState) (hinv : ExecInv g s) (hstep : ExecStep g s s') :
    ExecInv g s' := by
  cases hstep with
  | launchSkip q nid hq hrun =>
    refine ⟨hinv.indeg_eq, hinv.actDone_ids, hinv.launch_count, hinv.launch_mem,
      hinv.inflight_not_done, hinv.actDone_running, hinv.inflight_running, ?_,
      hinv.running_ids⟩
    intro n hn
    exact hinv.ready_ids n (by rw [hq]; exact List.mem_append_left _ hn)
  | launch q nid hq hrun =>
    have hnidready : nid ∈ s.ready := by
      rw [hq]; exact List.mem_append_right _ (List.mem_singleton_self nid)
    have hnidlaunch : nid ∉ s.launches := fun h => hrun ((hinv.launch_mem nid).mp h)
    refine ⟨hinv.indeg_eq, hinv.actDone_ids, ?_, ?_, ?_, ?_, ?_, ?_, ?_⟩
    · intro n
      rw [List.count_append]
      by_cases hn : n = nid
      · subst hn
        have h0 : s.launches.count n = 0 := List.count_eq_zero.mpr hnidlaunch
        rw [h0, List.count_singleton]
        simp
      · have h1 : List.count n [nid] = 0 := by
          rw [List.count_singleton]
          simp only [beq_iff_eq, if_neg (fun hh : nid = n => hn hh.symm)]
        rw [h1]
        simpa using hinv.launch_count n
    · intro n
      simp only [List.mem_append, List.mem_singleton, Finset.mem_insert, hinv.launch_mem n]
      tauto
    · intro n hn
      have hn' : n ∈ s.inflight ∨ n = nid := by
        rcases Finset.mem_insert.mp hn with h | h
        · exact Or.inr h
        · exact Or.inl h
      rcases hn' with h | rfl
      · exact hinv.inflight_not_done n h
      · exact fun hdone => hrun (hinv.actDone_running n hdone)
    · intro n hn
      exact Finset.mem_insert_of_mem (hinv.actDone_running n hn)
    · intro n hn
      rcases Finset.mem_insert.mp hn with h | h
      · exact h ▸ Finset.mem_insert_self nid s.running
      · exact Finset.mem_insert_of_mem (hinv.inflight_running n h)
    · intro n hn
      exact hinv.ready_ids n (by rw [hq]; exact List.mem_append_left _ hn)
    · intro n hn
      rcases Finset.mem_insert.mp hn with h | h
      · exact h ▸ hinv.ready_ids nid hnidready
      · exact hinv.running_ids n h
  | completeOk nid out hin =>
    have hnid_not_done : nid ∉ s.actDone := hinv.inflight_not_done nid hin
    have hnid_running : nid ∈ s.running := hinv.inflight_running nid hin
    refine ⟨?_, ?_, hinv.launch_count, hinv.launch_mem, ?_, ?_, ?_, ?_, hinv.running_ids⟩
    · intro c
      have hchar := (activateChildren_closed_form g nid out s.indeg s.ready c).1
      have hsum : ∑ u ∈ insert nid s.actDone,
          decAmt g (Function.update s.outputs nid (some out)) u c
          = decAmt g (Function.update s.outputs nid (some out)) nid c
            + ∑ u ∈ s.actDone, decAmt g s.outputs u c := by
        rw [Finset.sum_insert hnid_not_done]
        congr 1
        refine Finset.sum_congr rfl (fun u hu => ?_)
        have hune : u ≠ nid := fun h => hnid_not_done (h ▸ hu)
        unfold decAmt
        rw [Function.update_noteq hune]
      show (activateChildren g nid out s.indeg s.ready).1 c = _
      rw [hchar, hsum, hinv.indeg_eq c]
      unfold decAmt
      rw [Function.update_same]
      unfold edgeCnt
      by_cases hen : edgeEnabled g nid c out <;> simp [hen] <;> ring
    · intro n hn
      rcases Finset.mem_insert.mp hn with h | h
      · exact h ▸ hinv.running_ids nid hnid_running
      · exact hinv.actDone_ids n h
    · intro n hn
      have hn1 : n ∈ s.inflight := Finset.mem_of_mem_erase hn
      have hn2 : n ≠ nid := Finset.ne_of_mem_erase hn
      intro hdone
      rcases Finset.mem_insert.mp hdone with h | h
      · exact hn2 h
      · exact hinv.inflight_not_done n hn1 h
    · intro n hn
      rcases Finset.mem_insert.mp hn with h | h
      · exact h ▸ hnid_running
      · exact hinv.actDone_running n h
    · intro n hn
      exact hinv.inflight_running n (Finset.mem_of_mem_erase hn)
    · intro n hn
      have hcnt := (activateChildren_closed_form g nid out s.indeg s.ready n).2
      have hpos : 0 < (activateChildren g nid out s.indeg s.ready).2.count n :=
        List.count_pos_iff.mpr hn
      rw [hcnt] at hpos
      by_cases hr : n ∈ s.ready
      · exact hinv.ready_ids n hr
      · have hz : s.ready.count n = 0 := List.count_eq_zero.mpr hr
        rw [hz] at hpos
        split_ifs at hpos with hcond
        · obtain ⟨-, h1, h2⟩ := hcond
          have hpos2 : 0 < g.edges.countP (fun e => e.from_ == nid && e.to_ == n) := by
            by_contra hc
            have : g.edges.countP (fun e => e.from_ == nid && e.to_ == n) = 0 := by omega
            rw [this] at h2
            simp at h2
            omega
          obtain ⟨e, hemem, hep⟩ := List.countP_pos_iff.mp hpos2
          have : e.to_ = n := by
            have := (Bool.and_eq_true _ _).mp hep
            exact beq_iff_eq.mp this.2
          exact this ▸ (he e hemem).2
        · omega
  | completeNoAct nid hin =>
    refine ⟨hinv.indeg_eq, hinv.actDone_ids, hinv.launch_count, hinv.launch_mem, ?_,
      hinv.actDone_running, ?_, hinv.ready_ids, hinv.running_ids⟩
    · intro n hn
      exact hinv.inflight_not_done n (Finset.mem_of_mem_erase hn)
    · intro n hn
      exact hinv.inflight_running n (Finset.mem_of_mem_erase hn)

/-- C9: throughout every run of a graph that passed validation (unique
ids, resolvable edge endpoints), every reachable coordination state has
non-negative in-degrees everywhere, and no node is ever launched twice:
the ghost trace of `asyncio.create_task` calls contains each node id at
most once. -/
theorem exec_run_invariants (g : GraphSpec)
    (_hn : (nodeIds g).Nodup)
    (he : ∀ e ∈ g.edges, e.from_ ∈ nodeIds g ∧ e.to_ ∈ nodeIds g)
    (s : ExecState) (hs : Reach g s) :
    (∀ c, 0 ≤ s.indeg c) ∧ (∀ n, s.launches.count n ≤ 1) := by
  have hinv : ExecInv g s := by
    induction hs with
    | init => exact execInv_init g
    | step s1 s2 h1 hstep ih => exact execInv_step g he s1 s2 ih hstep
  refine ⟨?_, hinv.launch_count⟩
  intro c
  rw [hinv.indeg_eq c]
  have htot : indeg0 g c = ∑ u ∈ (nodeIds g).toFinset, (edgeCnt g u c : Int) := by
    rw [indeg0_eq_countP]
    unfold edgeCnt
    rw [sum_edgeCnt_eq_countP ((nodeIds g).toFinset) g.edges c
      (fun e hx => List.mem_toFinset.mpr (he e hx).1)]
  have hsub : s.actDone ⊆ (nodeIds g).toFinset :=
    fun u hu => List.mem_toFinset.mpr (hinv.actDone_ids u hu)
  have h1 : ∑ u ∈ s.actDone, decAmt g s.outputs u c
      ≤ ∑ u ∈ s.actDone, (edgeCnt g u c : Int) :=
    Finset.sum_le_sum (fun u _ => (decAmt_le g s.outputs u c).2)
  have h2 : ∑ u ∈ s.actDone, (edgeCnt g u c : Int)
      ≤ ∑ u ∈ (nodeIds g).toFinset, (edgeCnt g u c : Int) :=
    Finset.sum_le_sum_of_subset_of_nonneg hsub
      (fun u _ _ => Int.natCast_nonneg (edgeCnt g u c))
  linarith

/-- Witness for `exec_run_invariants`: the invariants at the initial state
of the two-node graph `c4Graph`. -/
theorem exec_run_invariants_witness :
    0 ≤ (initState c4Graph).indeg "B"
    ∧ (initState c4Graph).launches.count "A" ≤ 1 :=
  ⟨(exec_run_invariants c4Graph (by decide)
      (by intro e hx; fin_cases hx <;> simp [c4Graph, nodeIds])
      (initState c4Graph) Reach.init).1 "B",
   (exec_run_invariants c4Graph (by decide)
      (by intro e hx; fin_cases hx <;> simp [c4Graph, nodeIds])
      (initState c4Graph) Reach.init).2 "A"⟩

/-- The initial in-degree of `x` as a sum of per-source edge counts over
the node ids (valid when every edge source is a known node). -/
theorem indeg0_eq_sum (g : GraphSpec)
    (hedges : ∀ e ∈ g.edges, e.from_ ∈ nodeIds g ∧ e.to_ ∈ nodeIds g) (x : String) :
    indeg0 g x = ∑ u ∈ (nodeIds g).toFinset, (edgeCnt g u x : Int) := by
  rw [indeg0_eq_countP]
  unfold edgeCnt
  rw [sum_edgeCnt_eq_countP ((nodeIds g).toFinset) g.edges x
    (fun e hx => List.mem_toFinset.mpr (hedges e hx).1)]

/-- Under the invariant the in-degree of `x` is the number of edges into
`x` from not-yet-visited known nodes. -/
theorem kahnInv_indeg_sdiff (g : GraphSpec)
    (hedges : ∀ e ∈ g.edges, e.from_ ∈ nodeIds g ∧ e.to_ ∈ nodeIds g)
    {q : List String} {indeg : String → Int} {order : List String}
    (inv : KahnInv g q indeg order) (x : String) :
    indeg x = ∑ u ∈ ((nodeIds g).toFinset \ order.toFinset), (edgeCnt g u x : Int) := by
  have hsub : order.toFinset ⊆ (nodeIds g).toFinset :=
    fun u hu => List.mem_toFinset.mpr (inv.order_ids u (List.mem_toFinset.mp hu))
  have hs : ∑ u ∈ ((nodeIds g).toFinset \ order.toFinset), (edgeCnt g u x : Int)
      + ∑ u ∈ order.toFinset, (edgeCnt g u x : Int)
      = ∑ u ∈ (nodeIds g).toFinset, (edgeCnt g u x : Int) := Finset.sum_sdiff hsub
  rw [inv.indeg_eq x, indeg0_eq_sum g hedges x]
  linarith

/-- Under the invariant every in-degree is non-negative. -/
theorem kahnInv_nonneg (g : GraphSpec)
    (hedges : ∀ e ∈ g.edges, e.from_ ∈ nodeIds g ∧ e.to_ ∈ nodeIds g)
    {q : List String} {indeg : String → Int} {order : List String}
    (inv : KahnInv g q indeg order) (x : String) : 0 ≤ indeg x := by
  rw [kahnInv_indeg_sdiff g hedges inv x]
  exact Finset.sum_nonneg (fun u _ => Int.natCast_nonneg _)

/-- Under the invariant, the edges from any single unvisited known node
`u` into `x` are all still counted in `indeg x`. -/
theorem kahnInv_cnt_le (g : GraphSpec)
    (hedges : ∀ e ∈ g.edges, e.from_ ∈ nodeIds g ∧ e.to_ ∈ nodeIds g)
    {q : List String} {indeg : String → Int} {order : List String}
    (inv : KahnInv g q indeg order) (x u : String)
    (hu : u ∈ nodeIds g) (hunotin : u ∉ order) :
    (edgeCnt g u x : Int) ≤ indeg x := by
  rw [kahnInv_indeg_sdiff g hedges inv x]
  refine Finset.single_le_sum (fun i _ => Int.natCast_nonneg (edgeCnt g i x)) ?_
  rw [Finset.mem_sdiff]
  exact ⟨List.mem_toFinset.mpr hu, fun h => hunotin (List.mem_toFinset.mp h)⟩

/-- A positive edge count yields an edge, hence membership of the target
among the node ids. -/
theorem edgeCnt_pos_to_ids (g : GraphSpec)
    (hedges : ∀ e ∈ g.edges, e.from_ ∈ nodeIds g ∧ e.to_ ∈ nodeIds g)
    {u x : String} (h : 0 < edgeCnt g u x) : x ∈ nodeIds g := by
  obtain ⟨e, hemem, hep⟩ := List.countP_pos_iff.mp h
  have hx : e.to_ = x := beq_iff_eq.mp ((Bool.and_eq_true _ _).mp hep).2
  exact hx ▸ (hedges e hemem).2

/-- An edge-step is the same as a positive edge count. -/
theorem edgeStep_iff_cnt_pos (g : GraphSpec) (u v : String) :
    edgeStep g u v ↔ 0 < edgeCnt g u v := by
  unfold edgeStep edgeCnt
  rw [List.countP_pos_iff]
  constructor
  · rintro ⟨e, hemem, h1, h2⟩
    exact ⟨e, hemem, by simp [h1, h2]⟩
  · rintro ⟨e, hemem, hp⟩
    have h := (Bool.and_eq_true _ _).mp hp
    exact ⟨e, hemem, beq_iff_eq.mp h.1, beq_iff_eq.mp h.2⟩

/-- Popping the last queue element and decrementing its children
preserves the Kahn loop invariant. -/
theorem kahnInv_pop (g : GraphSpec)
    (hedges : ∀ e ∈ g.edges, e.from_ ∈ nodeIds g ∧ e.to_ ∈ nodeIds g)
    (q : List String) (indeg : String → Int) (order : List String) (nid : String)
    (hq : q = q.dropLast ++ [nid])
    (inv : KahnInv g q indeg order) :
    KahnInv g (decEntries (fun _ => true) (childrenMap g nid) indeg q.dropLast).2
      (decEntries (fun _ => true) (childrenMap g nid) indeg q.dropLast).1
      (order ++ [nid]) := by
  have hnid_q : nid ∈ q := by
    rw [hq]; exact List.mem_append_right _ (List.mem_singleton_self nid)
  have hnid_zero : indeg nid = 0 := inv.q_zero nid hnid_q
  have hnid_ids : nid ∈ nodeIds g := inv.q_ids nid hnid_q
  have hnid_order : nid ∉ order := inv.disj nid hnid_q
  have hqcount : ∀ x, q.count x = q.dropLast.count x + List.count x [nid] := by
    intro x
    conv_lhs => rw [hq]
    rw [List.count_append]
  have hindeg1 : ∀ x, (decEntries (fun _ => true) (childrenMap g nid) indeg q.dropLast).1 x
      = indeg x - (edgeCnt g nid x : Int) := by
    intro x
    rw [decEntries_indeg]
    rw [if_pos rfl, childrenMap_count]
    rfl
  have hcount : ∀ x, (decEntries (fun _ => true) (childrenMap g nid) indeg q.dropLast).2.count x
      = q.dropLast.count x
        + (if 1 ≤ indeg x ∧ indeg x ≤ (edgeCnt g nid x : Int) then 1 else 0) := by
    intro x
    rw [decEntries_queue_count, childrenMap_count]
    congr 1
    simp [edgeCnt]
  have hmemq2 : ∀ x, x ∈ (decEntries (fun _ => true) (childrenMap g nid) indeg q.dropLast).2
      → x ∈ q.dropLast ∨ (1 ≤ indeg x ∧ indeg x ≤ (edgeCnt g nid x : Int)) := by
    intro x hx
    have hpos := List.count_pos_iff.mpr hx
    rw [hcount x] at hpos
    by_cases hxd : x ∈ q.dropLast
    · exact Or.inl hxd
    · have h0 : q.dropLast.count x = 0 := List.count_eq_zero.mpr hxd
      rw [h0] at hpos
      split_ifs at hpos with hc
      · exact Or.inr hc
      · omega
  have hdrop_mem : ∀ x, x ∈ q.dropLast → x ∈ q := by
    intro x hx
    rw [hq]; exact List.mem_append_left _ hx
  have hdrop_ne : ∀ x, x ∈ q.dropLast → x ≠ nid := by
    intro x hx hxe
    subst hxe
    have hc1 := (List.nodup_iff_count_le_one.mp inv.q_nodup) x
    have hc2 := hqcount x
    have hc3 : 0 < q.dropLast.count x := List.count_pos_iff.mpr hx
    rw [List.count_singleton] at hc2
    simp at hc2
    omega
  constructor
  · rw [List.nodup_append]
    refine ⟨inv.order_nodup, List.nodup_singleton nid, ?_⟩
    intro a ha hb
    rw [List.mem_singleton] at hb
    exact hnid_order (hb ▸ ha)
  · rw [List.nodup_iff_count_le_one]
    intro x
    rw [hcount x]
    by_cases hc : 1 ≤ indeg x ∧ indeg x ≤ (edgeCnt g nid x : Int)
    · have hxq : x ∉ q := fun hxq => by
        have := inv.q_zero x hxq
        omega
      have h0 : q.dropLast.count x = 0 :=
        List.count_eq_zero.mpr (fun hh => hxq (hdrop_mem x hh))
      rw [h0, if_pos hc]
    · rw [if_neg hc]
      have hc1 := (List.nodup_iff_count_le_one.mp inv.q_nodup) x
      have hc2 := hqcount x
      omega
  · intro x hx
    rw [List.mem_append, List.mem_singleton]
    rcases hmemq2 x hx with hxd | hcond
    · rintro (ho | he)
      · exact inv.disj x (hdrop_mem x hxd) ho
      · exact hdrop_ne x hxd he
    · rintro (ho | he)
      · have := inv.order_nonpos x ho
        omega
      · subst he
        omega
  · intro x hx
    rcases hmemq2 x hx with hxd | hcond
    · exact inv.q_ids x (hdrop_mem x hxd)
    · have hcntpos : 0 < edgeCnt g nid x := by
        rcases hcond with ⟨h1, h2⟩
        by_contra hcc
        have : edgeCnt g nid x = 0 := by omega
        rw [this] at h2
        simp at h2
        omega
      exact edgeCnt_pos_to_ids g hedges hcntpos
  · intro x hx
    rw [List.mem_append, List.mem_singleton] at hx
    rcases hx with ho | he
    · exact inv.order_ids x ho
    · exact he ▸ hnid_ids
  · intro x hx
    rw [hindeg1 x]
    rcases hmemq2 x hx with hxd | hcond
    · have hz : indeg x = 0 := inv.q_zero x (hdrop_mem x hxd)
      have hle := kahnInv_cnt_le g hedges inv x nid hnid_ids hnid_order
      have hge : (0 : Int) ≤ edgeCnt g nid x := Int.natCast_nonneg _
      omega
    · have hle := kahnInv_cnt_le g hedges inv x nid hnid_ids hnid_order
      omega
  · intro x hx
    rw [List.mem_append, List.mem_singleton] at hx
    rw [hindeg1 x]
    have hge : (0 : Int) ≤ edgeCnt g nid x := Int.natCast_nonneg _
    rcases hx with ho | he
    · have := inv.order_nonpos x ho
      omega
    · subst he
      omega
  · intro x hxids hx0
    rw [hindeg1 x] at hx0
    by_cases hcz : edgeCnt g nid x = 0
    · have hz : indeg x = 0 := by
        rw [hcz] at hx0
        simpa using hx0
      rcases inv.zero_in x hxids hz with hxq | hxo
      · rw [hq] at hxq
        rcases List.mem_append.mp hxq with hxd | hxn
        · left
          rw [← List.count_pos_iff, hcount x]
          have := List.count_pos_iff.mpr hxd
          omega
        · right
          rw [List.mem_append]
          exact Or.inr hxn
      · right
        rw [List.mem_append]
        exact Or.inl hxo
    · left
      rw [← List.count_pos_iff, hcount x]
      have hcond : 1 ≤ indeg x ∧ indeg x ≤ (edgeCnt g nid x : Int) := by
        constructor <;> omega
      rw [if_pos hcond]
      omega
  · intro x
    rw [hindeg1 x, inv.indeg_eq x]
    have htf : (order ++ [nid]).toFinset = insert nid order.toFinset := by
      simp only [List.toFinset_append, List.toFinset_cons, List.toFinset_nil]
      rw [Finset.union_comm]
      simp [Finset.insert_eq]
    rw [htf, Finset.sum_insert (fun h => hnid_order (List.mem_toFinset.mp h))]
    ring

/-- Main property of the Kahn worklist loop: starting from an invariant
state with enough fuel (one unit more than the nodes that can still be
visited), the loop drains the queue completely, the invariant holds at the
end, and no member of a set `S` in which every element has a predecessor
in `S` (the nodes of a cycle, for instance) is ever visited. -/
theorem kahnLoop_spec (g : GraphSpec)
    (hedges : ∀ e ∈ g.edges, e.from_ ∈ nodeIds g ∧ e.to_ ∈ nodeIds g)
    (S : String → Prop)
    (hS : ∀ v, S v → ∃ u, S u ∧ 0 < edgeCnt g u v) :
    ∀ (fuel : Nat) (q : List String) (indeg : String → Int) (order : List String),
      KahnInv g q indeg order →
      (∀ v, S v → v ∉ q ∧ v ∉ order) →
      (nodeIds g).length + 1 ≤ fuel + order.length →
      KahnInv g (kahnLoop (childrenMap g) fuel q indeg order).2.2
          (kahnLoop (childrenMap g) fuel q indeg order).2.1
          (kahnLoop (childrenMap g) fuel q indeg order).1
      ∧ (kahnLoop (childrenMap g) fuel q indeg order).2.2 = []
      ∧ (∀ v, S v → v ∉ (kahnLoop (childrenMap g) fuel q indeg order).1) := by
  intro fuel
  induction fuel with
  | zero =>
    intro q indeg order inv _ hfuel
    exfalso
    have hsub : order.Subperm (nodeIds g) :=
      inv.order_nodup.subperm (fun x hx => inv.order_ids x hx)
    have := hsub.length_le
    omega
  | succ n ih =>
    intro q indeg order inv hAvoid hfuel
    cases hlast : q.getLast? with
    | none =>
      have hqnil : q = [] := List.getLast?_eq_none_iff.mp hlast
      subst hqnil
      simp only [kahnLoop, hlast]
      refine ⟨inv, ?_, fun v hv => (hAvoid v hv).2⟩
      trivial
    | some nid =>
      have hqne : q ≠ [] := by
        intro h
        rw [h] at hlast
        simp at hlast
      have hq' : q = q.dropLast ++ [nid] := by
        have h1 := List.dropLast_append_getLast hqne
        have h2 := List.getLast?_eq_getLast q hqne
        rw [hlast] at h2
        have h3 : q.getLast hqne = nid := by
          injection h2.symm
        rw [← h3]
        exact h1.symm
      have hnid_q : nid ∈ q := by
        rw [hq']; exact List.mem_append_right _ (List.mem_singleton_self nid)
      have inv' := kahnInv_pop g hedges q indeg order nid hq' inv
      have hindeg1 : ∀ x, (decEntries (fun _ => true) (childrenMap g nid) indeg q.dropLast).1 x
          = indeg x - (edgeCnt g nid x : Int) := by
        intro x
        rw [decEntries_indeg, if_pos rfl, childrenMap_count]
        rfl
      have hcount : ∀ x,
          (decEntries (fun _ => true) (childrenMap g nid) indeg q.dropLast).2.count x
          = q.dropLast.count x
            + (if 1 ≤ indeg x ∧ indeg x ≤ (edgeCnt g nid x : Int) then 1 else 0) := by
        intro x
        rw [decEntries_queue_count, childrenMap_count]
        congr 1
        simp [edgeCnt]
      have havoid' : ∀ v, S v →
          v ∉ (decEntries (fun _ => true) (childrenMap g nid) indeg q.dropLast).2
          ∧ v ∉ order ++ [nid] := by
        intro v hv
        obtain ⟨hvq, hvo⟩ := hAvoid v hv
        have hvnid : v ≠ nid := fun h => hvq (h ▸ hnid_q)
        constructor
        · intro hvp
          have hpos := List.count_pos_iff.mpr hvp
          rw [hcount v] at hpos
          have hvd : v ∉ q.dropLast := fun h => hvq (by rw [hq']; exact List.mem_append_left _ h)
          have h0 : q.dropLast.count v = 0 := List.count_eq_zero.mpr hvd
          rw [h0] at hpos
          split_ifs at hpos with hcond
          · obtain ⟨u, hSu, hucnt⟩ := hS v hv
            obtain ⟨huq, huo⟩ := hAvoid u hSu
            have hu_ids : u ∈ nodeIds g := by
              obtain ⟨e, hemem, hep⟩ := List.countP_pos_iff.mp hucnt
              have hfu : e.from_ = u := beq_iff_eq.mp ((Bool.and_eq_true _ _).mp hep).1
              exact hfu ▸ (hedges e hemem).1
            have hune : nid ≠ u := fun h => huq (h ▸ hnid_q)
            have hnid_ids : nid ∈ nodeIds g := inv.q_ids nid hnid_q
            have hnid_order : nid ∉ order := inv.disj nid hnid_q
            have hpair : ({nid, u} : Finset String)
                ⊆ (nodeIds g).toFinset \ order.toFinset := by
              intro w hw
              rw [Finset.mem_insert, Finset.mem_singleton] at hw
              rw [Finset.mem_sdiff]
              rcases hw with rfl | rfl
              · exact ⟨List.mem_toFinset.mpr hnid_ids,
                  fun h => hnid_order (List.mem_toFinset.mp h)⟩
              · exact ⟨List.mem_toFinset.mpr hu_ids,
                  fun h => huo (List.mem_toFinset.mp h)⟩
            have hsum2 : ∑ w ∈ ({nid, u} : Finset String), (edgeCnt g w v : Int)
                ≤ ∑ w ∈ ((nodeIds g).toFinset \ order.toFinset), (edgeCnt g w v : Int) :=
              Finset.sum_le_sum_of_subset_of_nonneg hpair
                (fun w _ _ => Int.natCast_nonneg _)
            rw [Finset.sum_pair hune] at hsum2
            have hD1 := kahnInv_indeg_sdiff g hedges inv v
            have : (1 : Int) ≤ edgeCnt g u v := by exact_mod_cast hucnt
            omega
          · omega
        · intro hvmem
          rw [List.mem_append, List.mem_singleton] at hvmem
          rcases hvmem with h | h
          · exact hvo h
          · exact hvnid h
      have hfuel' : (nodeIds g).length + 1 ≤ n + (order ++ [nid]).length := by
        rw [List.length_append]
        simp only [List.length_singleton]
        omega
      have hres := ih (decEntries (fun _ => true) (childrenMap g nid) indeg q.dropLast).2
        (decEntries (fun _ => true) (childrenMap g nid) indeg q.dropLast).1
        (order ++ [nid]) inv' havoid' hfuel'
      simp only [kahnLoop, hlast]
      exact hres

/-- A nonempty finite set in which every element has an edge-predecessor
inside the set contains a cycle. -/
theorem cycle_of_pred (g : GraphSpec) (U : Finset String) (hne : U.Nonempty)
    (hpred : ∀ v ∈ U, ∃ u ∈ U, edgeStep g u v) :
    ∃ n, Relation.TransGen (edgeStep g) n n := by
  classical
  obtain ⟨v0, hv0⟩ := hne
  have hf : ∀ v : {x // x ∈ U}, ∃ u : {x // x ∈ U}, edgeStep g u.val v.val := by
    intro v
    obtain ⟨u, hu, hstep⟩ := hpred v.val v.prop
    exact ⟨⟨u, hu⟩, hstep⟩
  choose f hf_spec using hf
  let seq : ℕ → {x // x ∈ U} := fun n => f^[n] ⟨v0, hv0⟩
  have hseq_step : ∀ n, edgeStep g (seq (n + 1)).val (seq n).val := by
    intro n
    have hit : seq (n + 1) = f (seq n) := Function.iterate_succ_apply' f n _
    rw [hit]
    exact hf_spec (seq n)
  have hchain : ∀ i k, Relation.TransGen (edgeStep g) (seq (i + k + 1)).val (seq i).val := by
    intro i k
    induction k with
    | zero => exact Relation.TransGen.single (hseq_step i)
    | succ m ihm =>
      have harith : i + (m + 1) + 1 = (i + m + 1) + 1 := by ring
      rw [harith]
      exact Relation.TransGen.head (hseq_step (i + m + 1)) ihm
  have key : ∀ a b, a < b → seq a = seq b → ∃ n, Relation.TransGen (edgeStep g) n n := by
    intro a b hab he2
    have hb : b = a + (b - a - 1) + 1 := by omega
    have hc := hchain a (b - a - 1)
    rw [← hb] at hc
    rw [← he2] at hc
    exact ⟨(seq a).val, hc⟩
  obtain ⟨i, j, hne2, heq⟩ := Finite.exists_ne_map_eq_of_infinite seq
  rcases Nat.lt_or_ge i j with hij | hij
  · exact key i j hij heq
  · have hji : j < i := by omega
    exact key j i hji heq.symm

/-- A list whose dedup has full length has no duplicates (and conversely),
which is how the validator's id-set size check decides uniqueness. -/
theorem dedup_length_eq_iff (l : List String) :
    l.dedup.length = l.length ↔ l.Nodup := by
  constructor
  · intro h
    have hsub := List.dedup_sublist l
    have heq := hsub.eq_of_length h
    rw [← heq]
    exact List.nodup_dedup l
  · intro h
    rw [List.dedup_eq_self.mpr h]

/-- The Kahn invariant holds on entry to the worklist loop. -/
theorem kahnInv_init (g : GraphSpec) (hnodup : (nodeIds g).Nodup) :
    KahnInv g ((nodeIds g).filter (fun nid => indeg0 g nid == 0)) (indeg0 g) [] := by
  constructor
  · exact List.nodup_nil
  · exact hnodup.filter _
  · intro x _
    exact List.not_mem_nil x
  · intro x hx
    exact (List.mem_filter.mp hx).1
  · intro x hx
    exact absurd hx (List.not_mem_nil x)
  · intro x hx
    exact beq_iff_eq.mp (List.mem_filter.mp hx).2
  · intro x hx
    exact absurd hx (List.not_mem_nil x)
  · intro x hxids hx0
    exact Or.inl (List.mem_filter.mpr ⟨hxids, by rw [hx0]; rfl⟩)
  · intro x
    simp

/-- The validator's edge-endpoint scan passes exactly when every edge
endpoint names a known node. -/
theorem edgeCheck_false_iff (g : GraphSpec) :
    (g.edges.any (fun e =>
        !((nodeIds g).contains e.from_) || !((nodeIds g).contains e.to_)) = false)
      ↔ ∀ e ∈ g.edges, e.from_ ∈ nodeIds g ∧ e.to_ ∈ nodeIds g := by
  rw [List.any_eq_false]
  constructor
  · intro h e he
    have h2 := h e he
    simpa using h2
  · intro h e he
    obtain ⟨h1, h2⟩ := h e he
    simp [h1, h2]

/-- If Kahn's loop visits every node, the graph is acyclic: the nodes of a
cycle are never visited. -/
theorem kahn_full_no_cycle (g : GraphSpec)
    (hnodup : (nodeIds g).Nodup)
    (hedge : ∀ e ∈ g.edges, e.from_ ∈ nodeIds g ∧ e.to_ ∈ nodeIds g)
    (hfull : (kahnLoop (childrenMap g) (g.nodes.length + 1)
        ((nodeIds g).filter (fun nid => indeg0 g nid == 0)) (indeg0 g) []).1.length
      = g.nodes.length) :
    Acyclic g := by
  intro n0 hn0
  have hS : ∀ v, (Relation.ReflTransGen (edgeStep g) n0 v
        ∧ Relation.ReflTransGen (edgeStep g) v n0) →
      ∃ u, (Relation.ReflTransGen (edgeStep g) n0 u
        ∧ Relation.ReflTransGen (edgeStep g) u n0) ∧ 0 < edgeCnt g u v := by
    rintro v ⟨h1, h2⟩
    rcases Relation.reflTransGen_iff_eq_or_transGen.mp h1 with heq | htg
    · subst heq
      obtain ⟨u, hu1, hu2⟩ := Relation.TransGen.tail'_iff.mp hn0
      exact ⟨u, ⟨hu1, Relation.ReflTransGen.single hu2⟩,
        (edgeStep_iff_cnt_pos g u v).mp hu2⟩
    · obtain ⟨u, hu1, hu2⟩ := Relation.TransGen.tail'_iff.mp htg
      exact ⟨u, ⟨hu1, Relation.ReflTransGen.head hu2 h2⟩,
        (edgeStep_iff_cnt_pos g u v).mp hu2⟩
  have havoid0 : ∀ v, (Relation.ReflTransGen (edgeStep g) n0 v
        ∧ Relation.ReflTransGen (edgeStep g) v n0) →
      v ∉ (nodeIds g).filter (fun nid => indeg0 g nid == 0) ∧ v ∉ ([] : List String) := by
    intro v hv
    obtain ⟨u, -, hcnt⟩ := hS v hv
    have hpos : 0 < indeg0 g v := by
      rw [indeg0_eq_countP]
      have hmono : edgeCnt g u v ≤ g.edges.countP (fun e => e.to_ == v) := by
        unfold edgeCnt
        exact List.countP_mono_left (fun e _ hp => ((Bool.and_eq_true _ _).mp hp).2)
      omega
    refine ⟨?_, List.not_mem_nil v⟩
    intro hvq
    have hz := beq_iff_eq.mp (List.mem_filter.mp hvq).2
    omega
  obtain ⟨invF, hqF, havoidF⟩ := kahnLoop_spec g hedge
    (fun v => Relation.ReflTransGen (edgeStep g) n0 v
      ∧ Relation.ReflTransGen (edgeStep g) v n0) hS (g.nodes.length + 1)
    ((nodeIds g).filter (fun nid => indeg0 g nid == 0)) (indeg0 g) []
    (kahnInv_init g hnodup) havoid0 (by simp [nodeIds])
  have hn0S : Relation.ReflTransGen (edgeStep g) n0 n0
      ∧ Relation.ReflTransGen (edgeStep g) n0 n0 :=
    ⟨Relation.ReflTransGen.refl, Relation.ReflTransGen.refl⟩
  obtain ⟨u, -, hcnt⟩ := hS n0 hn0S
  have hn0ids : n0 ∈ nodeIds g := edgeCnt_pos_to_ids g hedge hcnt
  have hsubp := invF.order_nodup.subperm (fun x hx => invF.order_ids x hx)
  have hperm := hsubp.perm_of_length_le (by rw [hfull]; simp [nodeIds])
  exact havoidF n0 hn0S (hperm.mem_iff.mpr hn0ids)

/-- If the graph is acyclic, Kahn's loop visits every node. -/
theorem kahn_full_of_acyclic (g : GraphSpec)
    (hnodup : (nodeIds g).Nodup)
    (hedge : ∀ e ∈ g.edges, e.from_ ∈ nodeIds g ∧ e.to_ ∈ nodeIds g)
    (hacyc : Acyclic g) :
    (kahnLoop (childrenMap g) (g.nodes.length + 1)
        ((nodeIds g).filter (fun nid => indeg0 g nid == 0)) (indeg0 g) []).1.length
      = g.nodes.length := by
  obtain ⟨invF, hqF, -⟩ := kahnLoop_spec g hedge (fun _ => False) (fun v hv => hv.elim)
    (g.nodes.length + 1) ((nodeIds g).filter (fun nid => indeg0 g nid == 0)) (indeg0 g) []
    (kahnInv_init g hnodup) (fun v hv => hv.elim) (by simp [nodeIds])
  have hsubp := invF.order_nodup.subperm (fun x hx => invF.order_ids x hx)
  have hle := hsubp.length_le
  have hall : ∀ x ∈ nodeIds g,
      x ∈ (kahnLoop (childrenMap g) (g.nodes.length + 1)
        ((nodeIds g).filter (fun nid => indeg0 g nid == 0)) (indeg0 g) []).1 := by
    by_contra hcon
    push_neg at hcon
    obtain ⟨v, hvids, hvno⟩ := hcon
    have hUne : v ∈ (nodeIds g).toFinset
        \ ((kahnLoop (childrenMap g) (g.nodes.length + 1)
            ((nodeIds g).filter (fun nid => indeg0 g nid == 0)) (indeg0 g) []).1).toFinset := by
      rw [Finset.mem_sdiff]
      exact ⟨List.mem_toFinset.mpr hvids, fun hh => hvno (List.mem_toFinset.mp hh)⟩
    have hpred : ∀ w ∈ ((nodeIds g).toFinset
        \ ((kahnLoop (childrenMap g) (g.nodes.length + 1)
            ((nodeIds g).filter (fun nid => indeg0 g nid == 0)) (indeg0 g) []).1).toFinset),
        ∃ u ∈ ((nodeIds g).toFinset
          \ ((kahnLoop (childrenMap g) (g.nodes.length + 1)
              ((nodeIds g).filter (fun nid => indeg0 g nid == 0)) (indeg0 g) []).1).toFinset),
          edgeStep g u w := by
      intro w hw
      rw [Finset.mem_sdiff] at hw
      obtain ⟨hwids, hwno⟩ := hw
      have hwids2 := List.mem_toFinset.mp hwids
      have hwno2 : w ∉ (kahnLoop (childrenMap g) (g.nodes.length + 1)
          ((nodeIds g).filter (fun nid => indeg0 g nid == 0)) (indeg0 g) []).1 :=
        fun hh => hwno (List.mem_toFinset.mpr hh)
      have hne0 : (kahnLoop (childrenMap g) (g.nodes.length + 1)
          ((nodeIds g).filter (fun nid => indeg0 g nid == 0)) (indeg0 g) []).2.1 w ≠ 0 := by
        intro h0
        rcases invF.zero_in w hwids2 h0 with hq | ho
        · rw [hqF] at hq
          exact List.not_mem_nil w hq
        · exact hwno2 ho
      have hnn := kahnInv_nonneg g hedge invF w
      have hsd := kahnInv_indeg_sdiff g hedge invF w
      have hsumpos : (0 : Int) < ∑ u ∈ ((nodeIds g).toFinset
          \ ((kahnLoop (childrenMap g) (g.nodes.length + 1)
              ((nodeIds g).filter (fun nid => indeg0 g nid == 0)) (indeg0 g) []).1).toFinset),
          (edgeCnt g u w : Int) := by
        rw [← hsd]
        omega
      obtain ⟨u, huU, hu0⟩ := Finset.exists_ne_zero_of_sum_ne_zero (ne_of_gt hsumpos)
      have hupos : 0 < edgeCnt g u w := by
        rcases Nat.eq_zero_or_pos (edgeCnt g u w) with hz | hp
        · exact absurd (by simp [hz]) hu0
        · exact hp
      exact ⟨u, huU, (edgeStep_iff_cnt_pos g u w).mpr hupos⟩
    obtain ⟨n, hcyc⟩ := cycle_of_pred g _ ⟨v, hUne⟩ hpred
    exact hacyc n hcyc
  have hsubp2 := hnodup.subperm (fun x hx => hall x hx)
  have hge := hsubp2.length_le
  have hidslen : (nodeIds g).length = g.nodes.length := by simp [nodeIds]
  omega

/-- C6: `_validate_graph` accepts a graph exactly when its node ids are
unique, every edge endpoint names a known node, and the graph has no cycle
(it raises `ValueError` otherwise); in particular every acyclic graph with
unique ids and resolvable endpoints passes.  The embedding is a pure
function of the graph: validation mutates nothing. -/
theorem validateGraph_ok_iff (g : GraphSpec) :
    validateGraph g = Except.ok ()
      ↔ ((nodeIds g).Nodup
          ∧ (∀ e ∈ g.edges, e.from_ ∈ nodeIds g ∧ e.to_ ∈ nodeIds g)
          ∧ Acyclic g) := by
  have hlen : (nodeIds g).length = g.nodes.length := by simp [nodeIds]
  constructor
  · intro hok
    unfold validateGraph at hok
    by_cases h1 : (nodeIds g).dedup.length ≠ g.nodes.length
    · rw [if_pos h1] at hok
      exact absurd hok (by simp)
    rw [if_neg h1] at hok
    by_cases h2 : g.edges.any (fun e =>
        !((nodeIds g).contains e.from_) || !((nodeIds g).contains e.to_)) = true
    · rw [if_pos h2] at hok
      exact absurd hok (by simp)
    rw [if_neg h2] at hok
    have hnodup : (nodeIds g).Nodup := by
      rw [← dedup_length_eq_iff]
      omega
    have hedge : ∀ e ∈ g.edges, e.from_ ∈ nodeIds g ∧ e.to_ ∈ nodeIds g :=
      (edgeCheck_false_iff g).mp (by simpa using h2)
    refine ⟨hnodup, hedge, ?_⟩
    by_cases h3 : (kahnLoop (childrenMap g) (g.nodes.length + 1)
        ((nodeIds g).filter (fun nid => indeg0 g nid == 0)) (indeg0 g) []).1.length
        ≠ g.nodes.length
    · rw [if_pos h3] at hok
      exact absurd hok (by simp)
    · exact kahn_full_no_cycle g hnodup hedge (by omega)
  · rintro ⟨hnodup, hedge, hacyc⟩
    unfold validateGraph
    have h1 : ¬((nodeIds g).dedup.length ≠ g.nodes.length) := by
      have := (dedup_length_eq_iff (nodeIds g)).mpr hnodup
      omega
    rw [if_neg h1]
    have h2 : ¬(g.edges.any (fun e =>
        !((nodeIds g).contains e.from_) || !((nodeIds g).contains e.to_)) = true) := by
      rw [Bool.not_eq_true]
      exact (edgeCheck_false_iff g).mpr hedge
    rw [if_neg h2]
    have h3 := kahn_full_of_acyclic g hnodup hedge hacyc
    show (if (kahnLoop (childrenMap g) (g.nodes.length + 1)
        ((nodeIds g).filter (fun nid => indeg0 g nid == 0)) (indeg0 g) []).1.length
        ≠ g.nodes.length then
        (Except.error "Cycle detected in graph (DAG only)" : Except String Unit)
      else Except.ok ()) = Except.ok ()
    rw [if_neg (by omega)]
